import Mathlib

set_option maxHeartbeats 1000000

/-!
Shallow embedding of the two pure cores of the bloom-local-prices repository:
the average-price aggregation of `src/components/AveragePricePanel.tsx`
(`normalizeProductName`, `fetchAveragePrices`) and the distance ranking of
`src/pages/BuyerDashboard.tsx` (`calculateDistance`, `fetchShops`).

Modelling conventions:
* JavaScript strings are `List Char`.
* The numeric prices flowing through the aggregator are modelled as `ℚ`
  (the code does exact accumulation and one division per group); the
  geographic computation is modelled over `ℝ`.
* `Array.prototype.sort(cmp)` (stable for any comparator since ES2019) is
  modelled by a stable insertion sort driven by the Boolean test
  "cmp returns a negative number"; for a consistent comparator every stable
  sort produces the same output, so the model is extensionally faithful.
* JavaScript `Map` iteration order is insertion order; the map is modelled
  as an association list updated in place.
-/

/-- Model of the JavaScript whitespace class: the characters matched by the
regexp class `\s` and stripped by `String.prototype.trim` (ASCII whitespace
plus NBSP and BOM; the rarer Unicode space separators behave identically in
both operations and are omitted). -/
def isJsWhitespace (c : Char) : Bool :=
  c == ' ' || c == '\t' || c == '\n' || c == '\r' ||
  c == Char.ofNat 11 || c == Char.ofNat 12 || c == Char.ofNat 160 ||
  c == Char.ofNat 0xfeff

/-- Character-wise model of `String.prototype.toLowerCase` on the Basic Latin
range: `'A'`–`'Z'` map to `'a'`–`'z'`, every other character is unchanged. -/
def lowerChar (c : Char) : Char :=
  if 'A' ≤ c ∧ c ≤ 'Z' then Char.ofNat (c.toNat + 32) else c

/-- Character-wise model of `String.prototype.toUpperCase` on the Basic Latin
range: `'a'`–`'z'` map to `'A'`–`'Z'`, every other character is unchanged. -/
def upperChar (c : Char) : Char :=
  if 'a' ≤ c ∧ c ≤ 'z' then Char.ofNat (c.toNat - 32) else c

/-- Model of `s.toLowerCase()`. -/
def jsToLowerCase (s : List Char) : List Char :=
  s.map lowerChar

/-- Model of `s.trim()`: drop leading and trailing whitespace. -/
def jsTrim (s : List Char) : List Char :=
  ((s.dropWhile isJsWhitespace).reverse.dropWhile isJsWhitespace).reverse

/-- The character class kept by `replace(/[^a-z0-9\s]/g, "")`: lowercase ASCII
letters, ASCII digits, and whitespace. -/
def isKept (c : Char) : Bool :=
  ('a' ≤ c && c ≤ 'z') || ('0' ≤ c && c ≤ '9') || isJsWhitespace c

/-- `AveragePricePanel.tsx`, `normalizeProductName`:
`name.toLowerCase().trim().replace(/[^a-z0-9\s]/g, "")`. -/
def normalizeProductName (name : List Char) : List Char :=
  (jsTrim (jsToLowerCase name)).filter isKept

/-- A product row as consumed by the aggregator: `name`, `category`, `price`
(`supabase.from("products").select("name, category, price")`).  The numeric
`price` is modelled as `ℚ`; `parseFloat(product.price.toString())` is the
identity on a number-valued `price`. -/
structure Product where
  name : List Char
  category : List Char
  price : ℚ
deriving DecidableEq

/-- The value stored per key in the aggregation `Map`:
`{ total: number; count: number; category: string }`. -/
structure Entry where
  total : ℚ
  count : ℕ
  category : List Char
deriving DecidableEq

/-- One output row of the aggregator (`interface AveragePrice`). -/
structure AveragePrice where
  name : List Char
  category : List Char
  avgPrice : ℚ
  shopCount : ℕ
deriving DecidableEq

/-- The group key `` `${normalizedName}-${product.category}` ``. -/
def mkKey (p : Product) : List Char :=
  normalizeProductName p.name ++ '-' :: p.category

/-- The `(normalizedName, category)` pair of a product (the conceptual
grouping key of the spec). -/
def keyPair (p : Product) : List Char × List Char :=
  (normalizeProductName p.name, p.category)

/-- Joining a `(normalizedName, category)` pair into the textual map key. -/
def keyJoin (pr : List Char × List Char) : List Char :=
  pr.1 ++ '-' :: pr.2

/-- One `products.forEach` step on the keyed accumulator: if the key is
present, add the price into `total` and bump `count` (in place, so the
entry keeps its position); otherwise append a fresh
`{ total: price, count: 1, category }` entry (JavaScript `Map.set` appends
new keys in insertion order). -/
def mapUpsert (p : Product) : List (List Char × Entry) → List (List Char × Entry)
  | [] => [(mkKey p, ⟨p.price, 1, p.category⟩)]
  | (k, e) :: rest =>
      if k = mkKey p then (k, ⟨e.total + p.price, e.count + 1, e.category⟩) :: rest
      else (k, e) :: mapUpsert p rest

/-- The `priceMap` after the `products.forEach` loop. -/
def buildPriceMap (products : List Product) : List (List Char × Entry) :=
  products.foldl (fun m p => mapUpsert p m) []

/-- `Map.get`: look an entry up by key. -/
def findEntry (k : List Char) : List (List Char × Entry) → Option Entry
  | [] => none
  | (k2, e) :: rest => if k2 = k then some e else findEntry k rest

/-- `key.split("-")[0]` — the part of the key before its first `'-'`
(the destructuring `const [name] = key.split("-")`). -/
def splitHead (key : List Char) : List Char :=
  key.takeWhile (fun c => c ≠ '-')

/-- `name.charAt(0).toUpperCase() + name.slice(1)`; on the empty string both
`charAt(0)` and `slice(1)` are empty, so the result is empty. -/
def capitalizeFirst : List Char → List Char
  | [] => []
  | c :: cs => upperChar c :: cs

/-- The `Array.from(priceMap.entries()).map(...)` step producing one
`AveragePrice` from a map entry. -/
def toAveragePrice (kv : List Char × Entry) : AveragePrice :=
  { name := capitalizeFirst (splitHead kv.1)
    category := kv.2.category
    avgPrice := kv.2.total / (kv.2.count : ℚ)
    shopCount := kv.2.count }

/-- Code-point (ordinal) lexicographic strict order on strings. -/
def listCharLt : List Char → List Char → Bool
  | [], [] => false
  | [], _ :: _ => true
  | _ :: _, [] => false
  | a :: as, b :: bs =>
      if a.toNat < b.toNat then true
      else if b.toNat < a.toNat then false
      else listCharLt as bs

/-- The primary-level collation treatment of one character, on the alphabet
reachable in display names: NBSP carries the same primary weight as the
space, and case folds away at the primary level. -/
def collationFold (c : Char) : Char :=
  if c = Char.ofNat 160 then ' ' else lowerChar c

/-- The primary collation key of a string under the default collation,
restricted to the characters that can occur in a display name (lowercase
ASCII letters, digits, the `\s` class, and a cased first letter): U+FEFF is
completely ignorable and is dropped; NBSP shares the primary weight of the
space; the primary order of the remaining characters coincides with
case-folded code-point order (the default table puts
TAB < LF < VT < FF < CR < space < digits < letters, each block in
code-point order). -/
def collationKey (s : List Char) : List Char :=
  (s.filter (fun c => c ≠ Char.ofNat 0xfeff)).map collationFold

/-- Sign model of the comparator `(a, b) => a.name.localeCompare(b.name)`:
`true` iff the comparator returns a negative number, i.e. iff the primary
collation keys compare strictly less.  Deeper weight levels (the tertiary
space/NBSP and case distinctions) are not modelled: primary-tied but
unequal display names arise only through NBSP, no theorem below constrains
the relative order of such names, and every other statement about the
output is invariant under permutation. -/
def localeCompareNameLt (a b : AveragePrice) : Bool :=
  listCharLt (collationKey a.name) (collationKey b.name)

/-- Insert one element into a list, placing it before the first element `y`
that does not satisfy `lt y x` (i.e. before the first element the comparator
does not order strictly below `x`).  This is the insertion step of a stable
comparator sort. -/
def insertSorted (lt : α → α → Bool) (x : α) : List α → List α
  | [] => [x]
  | y :: ys => if lt y x then y :: insertSorted lt x ys else x :: y :: ys

/-- Stable sort with respect to the strict comparator test `lt`
(model of `Array.prototype.sort`, stable since ES2019; for a consistent
comparator every stable sort yields the same output). -/
def sortWith (lt : α → α → Bool) : List α → List α
  | [] => []
  | x :: xs => insertSorted lt x (sortWith lt xs)

/-- The pure core of `fetchAveragePrices` (its I/O shell — the supabase
query, `setAveragePrices`, error logging — stripped): build the keyed
accumulator, turn each entry into an `AveragePrice`, and sort by display
name with `localeCompare`. -/
def fetchAveragePrices (products : List Product) : List AveragePrice :=
  sortWith localeCompareNameLt ((buildPriceMap products).map toAveragePrice)

/-- A shop row as consumed by the ranking (`interface Shop` in
`BuyerDashboard.tsx`); the display-only fields (`shop_name`, `owner_name`,
`address`, `phone`) play no role in the ranking and are summarised by the
opaque `id`, which rides along unchanged. -/
structure Shop where
  id : List Char
  latitude : ℝ
  longitude : ℝ

/-- A shop together with its optional `distance` annotation
(`distance?: number` on the `Shop` interface; `none` models the field being
absent). -/
structure RankedShop where
  shop : Shop
  distance : Option ℝ

/-- Model of `Math.atan2 y x` on real arguments (the JavaScript semantics of
`±0`/`NaN` do not arise in the embedding). -/
noncomputable def atan2 (y x : ℝ) : ℝ :=
  if 0 < x then Real.arctan (y / x)
  else if x < 0 then
    (if 0 ≤ y then Real.arctan (y / x) + Real.pi else Real.arctan (y / x) - Real.pi)
  else if 0 < y then Real.pi / 2
  else if y < 0 then -(Real.pi / 2)
  else 0

/-- `BuyerDashboard.tsx`, `calculateDistance`: haversine distance with
`R = 6371`, angles converted degrees→radians via `* (Math.PI / 180)`. -/
noncomputable def calculateDistance (lat1 lon1 lat2 lon2 : ℝ) : ℝ :=
  let R : ℝ := 6371
  let dLat := (lat2 - lat1) * (Real.pi / 180)
  let dLon := (lon2 - lon1) * (Real.pi / 180)
  let a := Real.sin (dLat / 2) * Real.sin (dLat / 2) +
    Real.cos (lat1 * (Real.pi / 180)) * Real.cos (lat2 * (Real.pi / 180)) *
      Real.sin (dLon / 2) * Real.sin (dLon / 2)
  let c := 2 * atan2 (Real.sqrt a) (Real.sqrt (1 - a))
  R * c

/-- Modelled from the spec: degrees-to-radians conversion ("All angles
converted degrees→radians before use"). -/
noncomputable def degToRad (θ : ℝ) : ℝ :=
  θ * (Real.pi / 180)

/-- Modelled from the spec: the haversine formula of section 4.2, stated in
the spec's own shape (`a = sin²(Δlat/2) + cos(lat1)·cos(lat2)·sin²(Δlng/2)`,
`c = 2·atan2(√a, √(1−a))`, `distance = R·c` with `R = 6371` exactly), for
comparison with the source's `calculateDistance`. -/
noncomputable def haversineSpec (lat1 lon1 lat2 lon2 : ℝ) : ℝ :=
  let a := Real.sin (degToRad (lat2 - lat1) / 2) ^ 2 +
    Real.cos (degToRad lat1) * Real.cos (degToRad lat2) *
      Real.sin (degToRad (lon2 - lon1) / 2) ^ 2
  6371 * (2 * atan2 (Real.sqrt a) (Real.sqrt (1 - a)))

/-- The `shop.distance || 0` read used by the sort comparator (for an
annotated shop this is its distance; `0` stands in for an absent field, and
a present distance of `0` is also read as `0`). -/
noncomputable def distOrZero (r : RankedShop) : ℝ :=
  match r.distance with
  | some d => d
  | none => 0

/-- Sign model of the shop comparator
`(a, b) => ((a.distance || 0) - (b.distance || 0))`: `true` iff the
difference is negative. -/
noncomputable def shopLt (a b : RankedShop) : Bool :=
  decide (distOrZero a < distOrZero b)

/-- The `map` that annotates every shop with its distance from the buyer. -/
noncomputable def annotateShops (lat lng : ℝ) (shops : List Shop) : List RankedShop :=
  shops.map (fun s => ⟨s, some (calculateDistance lat lng s.latitude s.longitude)⟩)

/-- The pure core of `fetchShops` (its I/O shell — the supabase query,
`setShops`, toasts — stripped): with a buyer location, annotate every shop
with its distance and sort by the distance comparator; without one, return
the fetched shops unchanged and unannotated. -/
noncomputable def fetchShops (userLocation : Option (ℝ × ℝ)) (data : List Shop) :
    List RankedShop :=
  match userLocation with
  | none => data.map (fun s => ⟨s, none⟩)
  | some (lat, lng) => sortWith shopLt (annotateShops lat lng data)

/-- The list of keys of the accumulator map, in insertion order. -/
def mapKeys (m : List (List Char × Entry)) : List (List Char) :=
  m.map Prod.fst

/-- Concrete input: a "rose" listed under the `fruit` category. -/
def productRoseFruit : Product :=
  ⟨['r', 'o', 's', 'e'], ['f', 'r', 'u', 'i', 't'], 30⟩

/-- Concrete input: a "Rose" listed under the `flower` category. -/
def productRoseFlower : Product :=
  ⟨['R', 'o', 's', 'e'], ['f', 'l', 'o', 'w', 'e', 'r'], 40⟩

/-- Concrete product list with one normalized name under two categories. -/
def productsRose : List Product :=
  [productRoseFruit, productRoseFlower]

/-- Concrete input: a product whose name normalizes to the empty string. -/
def productBangs : Product :=
  ⟨['!', '!', '!'], ['f', 'r', 'u', 'i', 't'], 5⟩

/-- Concrete one-element product list around `productBangs`. -/
def productsBangs : List Product :=
  [productBangs]

theorem isJsWhitespace_cases {c : Char} (h : isJsWhitespace c = true) :
    c = ' ' ∨ c = '\t' ∨ c = '\n' ∨ c = '\r' ∨ c = Char.ofNat 11 ∨ c = Char.ofNat 12 ∨
    c = Char.ofNat 160 ∨ c = Char.ofNat 0xfeff := by
  unfold isJsWhitespace at h
  simp only [Bool.or_eq_true, beq_iff_eq] at h
  tauto

theorem lowerChar_eq_self_of_isKept {c : Char} (h : isKept c = true) : lowerChar c = c := by
  unfold isKept at h
  simp only [Bool.or_eq_true, Bool.and_eq_true, decide_eq_true_eq] at h
  rcases h with (⟨h1, _⟩ | ⟨_, h2⟩) | hws
  · unfold lowerChar
    rw [if_neg]
    rintro ⟨-, hZ⟩
    exact absurd (le_trans h1 hZ) (by decide)
  · unfold lowerChar
    rw [if_neg]
    rintro ⟨hA, -⟩
    exact absurd (le_trans hA h2) (by decide)
  · rcases isJsWhitespace_cases hws with h | h | h | h | h | h | h | h <;> subst h <;> decide

theorem mem_of_mem_jsTrim {c : Char} {s : List Char} (h : c ∈ jsTrim s) : c ∈ s := by
  unfold jsTrim at h
  rw [List.mem_reverse] at h
  have h2 : c ∈ (s.dropWhile isJsWhitespace).reverse :=
    (List.dropWhile_sublist isJsWhitespace).mem h
  rw [List.mem_reverse] at h2
  exact (List.dropWhile_sublist isJsWhitespace).mem h2

theorem isKept_of_mem_normalize {c : Char} {s : List Char}
    (h : c ∈ normalizeProductName s) : isKept c = true :=
  (List.mem_filter.mp h).2

/-- C4, counterexample: the claim "normalize(normalize(x)) == normalize(x)
for every x" fails at `"a !"`: one pass yields `"a "` (stripping `'!'`
exposes a trailing space after the trim already happened), a second pass
yields `"a"`. -/
theorem normalize_not_idempotent :
    normalizeProductName (normalizeProductName ['a', ' ', '!']) ≠
      normalizeProductName ['a', ' ', '!'] := by
  decide

/-- C4, amended: a second application of `normalizeProductName` coincides
with trimming its result — so normalization is idempotent exactly on those
inputs where stripping disallowed characters exposes no leading or trailing
whitespace. -/
theorem normalize_normalize (s : List Char) :
    normalizeProductName (normalizeProductName s) = jsTrim (normalizeProductName s) := by
  have hlower : jsToLowerCase (normalizeProductName s) = normalizeProductName s := by
    unfold jsToLowerCase
    rw [List.map_congr_left
      (fun c hc => lowerChar_eq_self_of_isKept (isKept_of_mem_normalize hc))]
    exact List.map_id _
  show (jsTrim (jsToLowerCase (normalizeProductName s))).filter isKept =
    jsTrim (normalizeProductName s)
  rw [hlower]
  exact List.filter_eq_self.mpr fun c hc => isKept_of_mem_normalize (mem_of_mem_jsTrim hc)

/-! ### The textual group key faithfully encodes the `(normalizedName, category)` pair -/

theorem dash_not_mem_normalize (s : List Char) : '-' ∉ normalizeProductName s := by
  intro h
  exact absurd (isKept_of_mem_normalize h) (by decide)

theorem splitHead_append {n c : List Char} (h : '-' ∉ n) :
    splitHead (n ++ '-' :: c) = n := by
  induction n with
  | nil => simp [splitHead]
  | cons x xs ih =>
      have hx : ¬(x = '-') := fun he => h (by simp [he])
      have ih2 := ih fun hm => h (List.mem_cons_of_mem x hm)
      show List.takeWhile (fun c => decide (c ≠ '-')) (x :: (xs ++ '-' :: c)) = x :: xs
      rw [List.takeWhile_cons, if_pos (decide_eq_true hx)]
      exact congrArg (x :: ·) ih2

theorem keyJoin_inj {n1 c1 n2 c2 : List Char} (h1 : '-' ∉ n1) (h2 : '-' ∉ n2)
    (h : n1 ++ '-' :: c1 = n2 ++ '-' :: c2) : n1 = n2 ∧ c1 = c2 := by
  induction n1 generalizing n2 with
  | nil =>
      cases n2 with
      | nil => simpa using h
      | cons y ys =>
          rw [List.nil_append, List.cons_append] at h
          injection h with hy _
          exact absurd (by rw [← hy] at h2 ⊢; exact List.mem_cons_self '-' ys) h2
  | cons x xs ih =>
      cases n2 with
      | nil =>
          rw [List.cons_append, List.nil_append] at h
          injection h with hx _
          exact absurd (by rw [hx]; exact List.mem_cons_self '-' xs) h1
      | cons y ys =>
          rw [List.cons_append, List.cons_append] at h
          injection h with hxy htl
          have hxs : '-' ∉ xs := fun hm => h1 (List.mem_cons_of_mem x hm)
          have hys : '-' ∉ ys := fun hm => h2 (List.mem_cons_of_mem y hm)
          obtain ⟨he, hc⟩ := ih hxs hys htl
          exact ⟨by rw [hxy, he], hc⟩

theorem mkKey_eq_keyJoin (p : Product) : mkKey p = keyJoin (keyPair p) := rfl

theorem mkKey_inj {p q : Product} (h : mkKey p = mkKey q) :
    normalizeProductName p.name = normalizeProductName q.name ∧ p.category = q.category :=
  keyJoin_inj (dash_not_mem_normalize p.name) (dash_not_mem_normalize q.name) h

theorem splitHead_mkKey (p : Product) :
    splitHead (mkKey p) = normalizeProductName p.name :=
  splitHead_append (dash_not_mem_normalize p.name)

/-! ### Order facts about the code-point comparator -/

theorem insertSorted_perm (lt : α → α → Bool) (x : α) :
    ∀ l : List α, (insertSorted lt x l).Perm (x :: l)
  | [] => List.Perm.refl _
  | y :: ys => by
      cases hxy : lt y x with
      | true =>
          simp only [insertSorted, hxy, if_true]
          exact (List.Perm.cons y (insertSorted_perm lt x ys)).trans (List.Perm.swap x y ys)
      | false => simp [insertSorted, hxy]

theorem sortWith_perm (lt : α → α → Bool) : ∀ l : List α, (sortWith lt l).Perm l
  | [] => List.Perm.refl _
  | x :: xs => (insertSorted_perm lt x (sortWith lt xs)).trans
      (List.Perm.cons x (sortWith_perm lt xs))

theorem insertSorted_pairwise {lt : α → α → Bool}
    (hasym : ∀ a b, lt a b = true → lt b a = false)
    (htrans : ∀ a b c, lt b a = false → lt c b = false → lt c a = false)
    (x : α) : ∀ l : List α, l.Pairwise (fun a b => lt b a = false) →
      (insertSorted lt x l).Pairwise (fun a b => lt b a = false)
  | [], _ => List.pairwise_singleton _ _
  | y :: ys, h => by
      rw [List.pairwise_cons] at h
      cases hxy : lt y x with
      | true =>
          simp only [insertSorted, hxy, if_true]
          rw [List.pairwise_cons]
          refine ⟨fun z hz => ?_, insertSorted_pairwise hasym htrans x ys h.2⟩
          rcases List.mem_cons.mp (((insertSorted_perm lt x ys).mem_iff).mp hz) with hz2 | hz2
          · rw [hz2]
            exact hasym y x hxy
          · exact h.1 z hz2
      | false =>
          have hunf : insertSorted lt x (y :: ys) = x :: y :: ys := by
            show (if lt y x then y :: insertSorted lt x ys else x :: y :: ys) = _
            rw [if_neg (by simp [hxy])]
          rw [hunf, List.pairwise_cons]
          refine ⟨fun z hz => ?_, List.pairwise_cons.mpr ⟨h.1, h.2⟩⟩
          rcases List.mem_cons.mp hz with hz2 | hz2
          · rw [hz2]
            exact hxy
          · exact htrans x y z hxy (h.1 z hz2)

theorem sortWith_pairwise {lt : α → α → Bool}
    (hasym : ∀ a b, lt a b = true → lt b a = false)
    (htrans : ∀ a b c, lt b a = false → lt c b = false → lt c a = false) :
    ∀ l : List α, (sortWith lt l).Pairwise (fun a b => lt b a = false)
  | [] => List.Pairwise.nil
  | x :: xs => insertSorted_pairwise hasym htrans x (sortWith lt xs)
      (sortWith_pairwise hasym htrans xs)

theorem insertSorted_filter {lt : α → α → Bool} (q : α → Bool) (x : α)
    (hq : ∀ y, q y = true → q x = true → lt y x = false) :
    ∀ l : List α, (insertSorted lt x l).filter q =
      if q x then x :: l.filter q else l.filter q
  | [] => by cases hqx : q x <;> simp [insertSorted, List.filter, hqx]
  | y :: ys => by
      cases hxy : lt y x with
      | false =>
          have hunf : insertSorted lt x (y :: ys) = x :: y :: ys := by
            show (if lt y x then y :: insertSorted lt x ys else x :: y :: ys) = _
            rw [if_neg (by simp [hxy])]
          rw [hunf, List.filter_cons]
      | true =>
          have hrec := insertSorted_filter q x hq ys
          have hunf : insertSorted lt x (y :: ys) = y :: insertSorted lt x ys := by
            show (if lt y x then y :: insertSorted lt x ys else x :: y :: ys) = _
            rw [if_pos hxy]
          rw [hunf, List.filter_cons]
          cases hqx : q x with
          | false =>
              rw [if_neg (by simp [hqx])] at hrec
              rw [hrec, if_neg (show ¬(false = true) by simp), List.filter_cons]
          | true =>
              have hqy : q y = false := by
                cases hy : q y
                · rfl
                · have hc := hq y hy hqx
                  rw [hxy] at hc
                  exact absurd hc (by simp)
              rw [if_pos (by simp [hqx])] at hrec
              rw [hrec, if_pos (show true = true from rfl), List.filter_cons]
              simp [hqy]

theorem sortWith_filter {lt : α → α → Bool} (q : α → Bool)
    (hq : ∀ x y, q x = true → q y = true → lt x y = false) :
    ∀ l : List α, (sortWith lt l).filter q = l.filter q
  | [] => rfl
  | x :: xs => by
      show (insertSorted lt x (sortWith lt xs)).filter q = (x :: xs).filter q
      rw [insertSorted_filter q x (fun y hy hx => hq y x hy hx) (sortWith lt xs),
        sortWith_filter q hq xs, List.filter_cons]

/-! ### Invariants of the keyed accumulator -/

theorem findEntry_mapUpsert_none {p : Product} :
    ∀ {m : List (List Char × Entry)}, findEntry (mkKey p) m = none →
      findEntry (mkKey p) (mapUpsert p m) = some ⟨p.price, 1, p.category⟩
  | [], _ => by simp [mapUpsert, findEntry]
  | (k, e) :: rest, h => by
      by_cases hk : k = mkKey p
      · subst hk
        simp [findEntry] at h
      · simp only [findEntry, if_neg hk] at h
        simp only [mapUpsert, if_neg hk, findEntry]
        exact findEntry_mapUpsert_none h

theorem findEntry_mapUpsert_some {p : Product} {e0 : Entry} :
    ∀ {m : List (List Char × Entry)}, findEntry (mkKey p) m = some e0 →
      findEntry (mkKey p) (mapUpsert p m) =
        some ⟨e0.total + p.price, e0.count + 1, e0.category⟩
  | [], h => by simp [findEntry] at h
  | (k, e) :: rest, h => by
      by_cases hk : k = mkKey p
      · subst hk
        simp only [findEntry, if_pos rfl] at h
        injection h with h
        subst h
        simp [mapUpsert, findEntry]
      · simp only [findEntry, if_neg hk] at h
        simp only [mapUpsert, if_neg hk, findEntry]
        exact findEntry_mapUpsert_some h

theorem findEntry_mapUpsert_ne {p : Product} {k : List Char} (h : k ≠ mkKey p) :
    ∀ m : List (List Char × Entry), findEntry k (mapUpsert p m) = findEntry k m
  | [] => by
      simp only [mapUpsert, findEntry]
      rw [if_neg (show ¬(mkKey p = k) from fun he => h he.symm)]
  | (k2, e) :: rest => by
      by_cases hk2 : k2 = mkKey p
      · subst hk2
        simp only [mapUpsert, if_pos rfl, findEntry]
        rw [if_neg (show ¬(mkKey p = k) from fun he => h he.symm),
          if_neg (show ¬(mkKey p = k) from fun he => h he.symm)]
      · simp only [mapUpsert, if_neg hk2, findEntry]
        by_cases hk2k : k2 = k
        · rw [if_pos hk2k, if_pos hk2k]
        · rw [if_neg hk2k, if_neg hk2k]
          exact findEntry_mapUpsert_ne h rest

theorem findEntry_eq_none_iff {k : List Char} :
    ∀ {m : List (List Char × Entry)}, findEntry k m = none ↔ k ∉ mapKeys m
  | [] => by simp [findEntry, mapKeys]
  | (k2, e) :: rest => by
      simp only [findEntry, mapKeys, List.map_cons, List.mem_cons]
      by_cases hk2 : k2 = k
      · subst hk2
        rw [if_pos rfl]
        exact ⟨fun h => Option.noConfusion h, fun h => absurd (Or.inl rfl) h⟩
      · rw [if_neg hk2]
        rw [findEntry_eq_none_iff (m := rest)]
        constructor
        · intro h hor
          rcases hor with hor | hor
          · exact hk2 hor.symm
          · exact h hor
        · intro h hmem
          exact h (Or.inr hmem)

theorem mapKeys_mapUpsert_mem {p : Product} :
    ∀ {m : List (List Char × Entry)}, mkKey p ∈ mapKeys m →
      mapKeys (mapUpsert p m) = mapKeys m
  | [], h => by simp [mapKeys] at h
  | (k, e) :: rest, h => by
      by_cases hk : k = mkKey p
      · subst hk
        simp [mapUpsert, mapKeys]
      · simp only [mapKeys, List.map_cons, List.mem_cons] at h
        rcases h with h | h
        · exact absurd h.symm hk
        · simp only [mapUpsert, if_neg hk, mapKeys, List.map_cons]
          rw [show (mapUpsert p rest).map Prod.fst = mapKeys (mapUpsert p rest) from rfl,
            mapKeys_mapUpsert_mem h]
          rfl

theorem mapKeys_mapUpsert_not_mem {p : Product} :
    ∀ {m : List (List Char × Entry)}, mkKey p ∉ mapKeys m →
      mapKeys (mapUpsert p m) = mapKeys m ++ [mkKey p]
  | [], _ => rfl
  | (k, e) :: rest, h => by
      simp only [mapKeys, List.map_cons, List.mem_cons] at h
      push_neg at h
      have hk : ¬ k = mkKey p := fun he => h.1 he.symm
      simp only [mapUpsert, if_neg hk, mapKeys, List.map_cons]
      rw [show (mapUpsert p rest).map Prod.fst = mapKeys (mapUpsert p rest) from rfl,
        mapKeys_mapUpsert_not_mem h.2]
      rfl

theorem buildPriceMap_append (ps : List Product) (p : Product) :
    buildPriceMap (ps ++ [p]) = mapUpsert p (buildPriceMap ps) := by
  unfold buildPriceMap
  rw [List.foldl_append]
  rfl

theorem nodup_mapKeys_buildPriceMap (ps : List Product) :
    (mapKeys (buildPriceMap ps)).Nodup := by
  induction ps using List.reverseRecOn with
  | nil => exact List.nodup_nil
  | append_singleton ps p ih =>
      rw [buildPriceMap_append]
      by_cases hmem : mkKey p ∈ mapKeys (buildPriceMap ps)
      · rw [mapKeys_mapUpsert_mem hmem]
        exact ih
      · rw [mapKeys_mapUpsert_not_mem hmem, List.nodup_append]
        exact ⟨ih, List.nodup_singleton _, by
          intro a ha hb
          rw [List.mem_singleton] at hb
          exact hmem (hb ▸ ha)⟩

theorem toFinset_mapKeys_buildPriceMap (ps : List Product) :
    (mapKeys (buildPriceMap ps)).toFinset = (ps.map mkKey).toFinset := by
  induction ps using List.reverseRecOn with
  | nil => rfl
  | append_singleton ps p ih =>
      rw [buildPriceMap_append, List.map_append, List.toFinset_append]
      by_cases hmem : mkKey p ∈ mapKeys (buildPriceMap ps)
      · rw [mapKeys_mapUpsert_mem hmem, ih]
        have hsub : (List.map mkKey [p]).toFinset ⊆ (ps.map mkKey).toFinset := by
          intro a ha
          simp only [List.map_cons, List.map_nil, List.toFinset_cons, List.toFinset_nil,
            Finset.mem_insert, Finset.not_mem_empty, or_false] at ha
          rw [ha, ← ih, List.mem_toFinset]
          exact hmem
        rw [Finset.union_eq_left.mpr hsub]
      · rw [mapKeys_mapUpsert_not_mem hmem, List.toFinset_append, ih]
        rfl

theorem mkKey_mem_mapKeys {p : Product} {ps : List Product} (h : p ∈ ps) :
    mkKey p ∈ mapKeys (buildPriceMap ps) := by
  rw [← List.mem_toFinset, toFinset_mapKeys_buildPriceMap, List.mem_toFinset]
  exact List.mem_map.mpr ⟨p, h, rfl⟩

/-- What the accumulator stores under key `k` after the whole pass: `none`
iff no product of the input maps to `k`. -/
theorem findEntry_buildPriceMap_eq_none_iff (ps : List Product) (k : List Char) :
    findEntry k (buildPriceMap ps) = none ↔
      ps.filter (fun p => mkKey p = k) = [] := by
  induction ps using List.reverseRecOn with
  | nil => simp [buildPriceMap, findEntry]
  | append_singleton ps p ih =>
      rw [buildPriceMap_append, List.filter_append]
      by_cases hk : k = mkKey p
      · subst hk
        constructor
        · intro h
          rcases hfind : findEntry (mkKey p) (buildPriceMap ps) with _ | e0
          · rw [findEntry_mapUpsert_none hfind] at h
            exact Option.noConfusion h
          · rw [findEntry_mapUpsert_some hfind] at h
            exact Option.noConfusion h
        · intro h
          have h2 := congrArg List.length h
          rw [List.length_append] at h2
          simp [List.filter_cons] at h2
      · rw [findEntry_mapUpsert_ne hk, ih]
        have hnk : ¬ (mkKey p = k) := fun he => hk he.symm
        have hone : List.filter (fun q => decide (mkKey q = k)) [p] = [] := by
          simp [List.filter_cons, hnk]
        rw [hone, List.append_nil]

/-- What the accumulator stores under key `k`, when it stores anything: the
exact sum of the prices of the products mapping to `k`, their number, and
the category of one (hence, by key injectivity, each) of them. -/
theorem findEntry_buildPriceMap_some (ps : List Product) (k : List Char) {e : Entry}
    (h : findEntry k (buildPriceMap ps) = some e) :
    e.total = ((ps.filter (fun p => mkKey p = k)).map Product.price).sum ∧
    e.count = (ps.filter (fun p => mkKey p = k)).length ∧
    ∃ p ∈ ps, mkKey p = k ∧ e.category = p.category := by
  induction ps using List.reverseRecOn generalizing e with
  | nil => exact absurd h (by simp [buildPriceMap, findEntry])
  | append_singleton ps p ih =>
      rw [buildPriceMap_append] at h
      rw [List.filter_append]
      by_cases hk : k = mkKey p
      · subst hk
        have hfp : List.filter (fun q => decide (mkKey q = mkKey p)) [p] = [p] := by
          simp [List.filter_cons]
        rcases hfind : findEntry (mkKey p) (buildPriceMap ps) with _ | e0
        · rw [findEntry_mapUpsert_none hfind] at h
          injection h with h
          subst h
          have hnil : ps.filter (fun q => decide (mkKey q = mkKey p)) = [] :=
            (findEntry_buildPriceMap_eq_none_iff ps (mkKey p)).mp hfind
          rw [hnil, hfp, List.nil_append]
          exact ⟨by simp, by simp, p, List.mem_append_right ps (List.mem_singleton.mpr rfl),
            rfl, rfl⟩
        · rw [findEntry_mapUpsert_some hfind] at h
          injection h with h
          subst h
          obtain ⟨ht, hc, q, hq, hqk, hqcat⟩ := ih hfind
          rw [hfp]
          refine ⟨?_, ?_, q, List.mem_append_left _ hq, hqk, hqcat⟩
          · simp [ht]
          · simp [hc]
      · rw [findEntry_mapUpsert_ne hk] at h
        obtain ⟨ht, hc, q, hq, hqk, hqcat⟩ := ih h
        have hnk : ¬ (mkKey p = k) := fun he => hk he.symm
        have hone : List.filter (fun q => decide (mkKey q = k)) [p] = [] := by
          simp [List.filter_cons, hnk]
        rw [hone, List.append_nil]
        exact ⟨ht, hc, q, List.mem_append_left _ hq, hqk, hqcat⟩

theorem sumCounts_mapUpsert (p : Product) : ∀ m : List (List Char × Entry),
    ((mapUpsert p m).map (fun kv => kv.2.count)).sum =
      ((m.map (fun kv => kv.2.count)).sum) + 1
  | [] => by simp [mapUpsert]
  | (k, e) :: rest => by
      by_cases hk : k = mkKey p
      · subst hk
        simp [mapUpsert]
        omega
      · simp only [mapUpsert, if_neg hk, List.map_cons, List.sum_cons,
          sumCounts_mapUpsert p rest]
        omega

theorem sumCounts_buildPriceMap (ps : List Product) :
    ((buildPriceMap ps).map (fun kv => kv.2.count)).sum = ps.length := by
  induction ps using List.reverseRecOn with
  | nil => rfl
  | append_singleton ps p ih =>
      rw [buildPriceMap_append, sumCounts_mapUpsert, ih, List.length_append]
      rfl

theorem findEntry_some_mem {k : List Char} {e : Entry} :
    ∀ {m : List (List Char × Entry)}, findEntry k m = some e → (k, e) ∈ m
  | [], h => absurd h (by simp [findEntry])
  | (k2, e2) :: rest, h => by
      by_cases hk : k2 = k
      · subst hk
        simp only [findEntry, if_pos rfl] at h
        injection h with h
        subst h
        exact List.mem_cons_self _ _
      · simp only [findEntry, if_neg hk] at h
        exact List.mem_cons_of_mem _ (findEntry_some_mem h)

theorem mem_findEntry_of_nodup {k : List Char} {e : Entry} :
    ∀ {m : List (List Char × Entry)}, (mapKeys m).Nodup → (k, e) ∈ m →
      findEntry k m = some e
  | [], _, h => absurd h (List.not_mem_nil _)
  | (k2, e2) :: rest, hnd, h => by
      rcases List.mem_cons.mp h with h2 | h2
      · rw [Prod.mk.injEq] at h2
        obtain ⟨h2a, h2b⟩ := h2
        subst h2a
        subst h2b
        simp [findEntry]
      · have hkmem : k ∈ mapKeys rest :=
          List.mem_map.mpr ⟨(k, e), h2, rfl⟩
        have hk2 : ¬ k2 = k := by
          simp only [mapKeys, List.map_cons, List.nodup_cons] at hnd
          intro he
          exact hnd.1 (he ▸ hkmem)
        simp only [findEntry, if_neg hk2]
        have hndrest : (mapKeys rest).Nodup := by
          simp only [mapKeys, List.map_cons, List.nodup_cons] at hnd
          exact hnd.2
        exact mem_findEntry_of_nodup hndrest h2

theorem mem_fetchAveragePrices_iff {ps : List Product} {g : AveragePrice} :
    g ∈ fetchAveragePrices ps ↔ ∃ kv ∈ buildPriceMap ps, toAveragePrice kv = g := by
  unfold fetchAveragePrices
  rw [(sortWith_perm _ _).mem_iff, List.mem_map]

theorem list_toFinset_map {α β : Type} [DecidableEq α] [DecidableEq β]
    (f : α → β) (l : List α) : (l.map f).toFinset = l.toFinset.image f := by
  ext x
  simp [List.mem_map]

/-! ### Claim theorems about the aggregator -/

/-- C1: the aggregator emits exactly one group per distinct
`(normalizedName, category)` pair — the number of output rows equals the
number of distinct pairs — and two products with the same normalized name
but different categories land under two distinct keys, both present in the
accumulator. -/
theorem fetchAveragePrices_group_count (ps : List Product) :
    (fetchAveragePrices ps).length = (ps.map keyPair).toFinset.card ∧
    ∀ p q, p ∈ ps → q ∈ ps →
      normalizeProductName p.name = normalizeProductName q.name →
      p.category ≠ q.category →
      mkKey p ≠ mkKey q ∧ mkKey p ∈ mapKeys (buildPriceMap ps) ∧
        mkKey q ∈ mapKeys (buildPriceMap ps) := by
  constructor
  · have h1 : (fetchAveragePrices ps).length = (buildPriceMap ps).length := by
      unfold fetchAveragePrices
      rw [(sortWith_perm _ _).length_eq, List.length_map]
    have h2 : (buildPriceMap ps).length = (mapKeys (buildPriceMap ps)).length :=
      (List.length_map _ _).symm
    have h3 : (mapKeys (buildPriceMap ps)).length =
        (mapKeys (buildPriceMap ps)).toFinset.card :=
      (List.toFinset_card_of_nodup (nodup_mapKeys_buildPriceMap ps)).symm
    rw [h1, h2, h3, toFinset_mapKeys_buildPriceMap]
    have hmap : ps.map mkKey = (ps.map keyPair).map keyJoin := by
      rw [List.map_map]
      exact List.map_congr_left fun p _ => rfl
    rw [hmap, list_toFinset_map]
    apply Finset.card_image_of_injOn
    intro a ha b hb hab
    rw [Finset.mem_coe, List.mem_toFinset, List.mem_map] at ha hb
    obtain ⟨pa, -, hpa⟩ := ha
    obtain ⟨pb, -, hpb⟩ := hb
    have hda : '-' ∉ a.1 := by
      rw [← hpa]
      exact dash_not_mem_normalize pa.name
    have hdb : '-' ∉ b.1 := by
      rw [← hpb]
      exact dash_not_mem_normalize pb.name
    obtain ⟨he1, he2⟩ := keyJoin_inj hda hdb hab
    exact Prod.ext he1 he2
  · intro p q hp hq _ hc
    refine ⟨?_, mkKey_mem_mapKeys hp, mkKey_mem_mapKeys hq⟩
    intro he
    exact hc (mkKey_inj he).2

/-- C1, witness: `productsRose` holds one normalized name "rose" under the
two categories fruit and flower; the hypotheses are discharged by `decide`
and the conclusion is delivered by `fetchAveragePrices_group_count`. -/
theorem fetchAveragePrices_group_count_witness :
    (productRoseFruit ∈ productsRose ∧ productRoseFlower ∈ productsRose ∧
      normalizeProductName productRoseFruit.name =
        normalizeProductName productRoseFlower.name ∧
      productRoseFruit.category ≠ productRoseFlower.category) ∧
    (mkKey productRoseFruit ≠ mkKey productRoseFlower ∧
      mkKey productRoseFruit ∈ mapKeys (buildPriceMap productsRose) ∧
      mkKey productRoseFlower ∈ mapKeys (buildPriceMap productsRose)) :=
  ⟨⟨by decide, by decide, by decide, by decide⟩,
    (fetchAveragePrices_group_count productsRose).2 productRoseFruit productRoseFlower
      (by decide) (by decide) (by decide) (by decide)⟩

/-- C6: every product's group carries the display name obtained by
upper-casing only the first character of the *normalized* name — whatever
the original casing of the record was — together with the product's
category. -/
theorem fetchAveragePrices_display (ps : List Product) (i : Fin ps.length) :
    ∃ g ∈ fetchAveragePrices ps,
      g.name = capitalizeFirst (normalizeProductName (ps.get i).name) ∧
      g.category = (ps.get i).category := by
  have hmem : ps.get i ∈ ps := ps.get_mem i.1 i.2
  rcases hfind : findEntry (mkKey (ps.get i)) (buildPriceMap ps) with _ | e
  · rw [findEntry_buildPriceMap_eq_none_iff] at hfind
    have hin : ps.get i ∈ ps.filter (fun q => decide (mkKey q = mkKey (ps.get i))) :=
      List.mem_filter.mpr ⟨hmem, by simp⟩
    rw [hfind] at hin
    exact absurd hin (List.not_mem_nil _)
  · obtain ⟨-, -, q, _, hqk, hqcat⟩ := findEntry_buildPriceMap_some ps _ hfind
    refine ⟨toAveragePrice (mkKey (ps.get i), e), ?_, ?_, ?_⟩
    · rw [mem_fetchAveragePrices_iff]
      exact ⟨(mkKey (ps.get i), e), findEntry_some_mem hfind, rfl⟩
    · show capitalizeFirst (splitHead (mkKey (ps.get i))) = _
      rw [splitHead_mkKey]
    · show e.category = (ps.get i).category
      rw [hqcat, (mkKey_inj hqk).2]

/-- C8: every output row's average price is exactly the sum of the prices of
its contributing products divided by the contributor count, and the reported
count is the number of contributors (so a single-contributor group reports
its own price and count 1). -/
theorem fetchAveragePrices_avg (ps : List Product)
    (i : Fin (fetchAveragePrices ps).length) :
    ∃ k, ps.filter (fun p => mkKey p = k) ≠ [] ∧
      ((fetchAveragePrices ps).get i).shopCount =
        (ps.filter (fun p => mkKey p = k)).length ∧
      ((fetchAveragePrices ps).get i).avgPrice =
        ((ps.filter (fun p => mkKey p = k)).map Product.price).sum /
          (((ps.filter (fun p => mkKey p = k)).length : ℚ)) := by
  have hmem : (fetchAveragePrices ps).get i ∈ fetchAveragePrices ps :=
    (fetchAveragePrices ps).get_mem i.1 i.2
  rw [mem_fetchAveragePrices_iff] at hmem
  obtain ⟨⟨k, e⟩, hkv, hg⟩ := hmem
  have hfind : findEntry k (buildPriceMap ps) = some e :=
    mem_findEntry_of_nodup (nodup_mapKeys_buildPriceMap ps) hkv
  obtain ⟨ht, hc, q, hq, hqk, -⟩ := findEntry_buildPriceMap_some ps k hfind
  refine ⟨k, ?_, ?_, ?_⟩
  · intro hnil
    have hin : q ∈ ps.filter (fun p => decide (mkKey p = k)) :=
      List.mem_filter.mpr ⟨hq, by simp [hqk]⟩
    rw [hnil] at hin
    exact absurd hin (List.not_mem_nil q)
  · rw [← hg]
    exact hc
  · rw [← hg]
    show e.total / (e.count : ℚ) = _
    rw [ht, hc]

/-- C9: products are partitioned among the groups — the contributor counts
over all output rows sum to the length of the input, every output row has
count at least 1, and the empty input yields the empty output. -/
theorem fetchAveragePrices_partition (ps : List Product) :
    ((fetchAveragePrices ps).map AveragePrice.shopCount).sum = ps.length ∧
    (∀ i : Fin (fetchAveragePrices ps).length,
      1 ≤ ((fetchAveragePrices ps).get i).shopCount) ∧
    fetchAveragePrices [] = [] := by
  refine ⟨?_, ?_, rfl⟩
  · have hperm : ((fetchAveragePrices ps).map AveragePrice.shopCount).Perm
        (((buildPriceMap ps).map toAveragePrice).map AveragePrice.shopCount) :=
      (sortWith_perm _ _).map _
    rw [hperm.sum_eq, List.map_map]
    exact sumCounts_buildPriceMap ps
  · intro i
    have hmem : (fetchAveragePrices ps).get i ∈ fetchAveragePrices ps :=
      (fetchAveragePrices ps).get_mem i.1 i.2
    rw [mem_fetchAveragePrices_iff] at hmem
    obtain ⟨⟨k, e⟩, hkv, hg⟩ := hmem
    have hfind : findEntry k (buildPriceMap ps) = some e :=
      mem_findEntry_of_nodup (nodup_mapKeys_buildPriceMap ps) hkv
    obtain ⟨-, hc, q, hq, hqk, -⟩ := findEntry_buildPriceMap_some ps k hfind
    rw [← hg]
    show 1 ≤ e.count
    rw [hc]
    have hin : q ∈ ps.filter (fun p => decide (mkKey p = k)) :=
      List.mem_filter.mpr ⟨hq, by simp [hqk]⟩
    exact List.length_pos.mpr fun hnil => absurd (hnil ▸ hin) (List.not_mem_nil q)

/-- C10: a product whose name normalizes to the empty string is not dropped:
the aggregator is total on it and it contributes to a group whose display
name is the empty string and whose category is the product's. -/
theorem fetchAveragePrices_emptyName (ps : List Product) (p : Product)
    (hp : p ∈ ps) (hn : normalizeProductName p.name = []) :
    ∃ g ∈ fetchAveragePrices ps,
      g.name = [] ∧ g.category = p.category ∧ 1 ≤ g.shopCount := by
  rcases hfind : findEntry (mkKey p) (buildPriceMap ps) with _ | e
  · rw [findEntry_buildPriceMap_eq_none_iff] at hfind
    have hin : p ∈ ps.filter (fun q => decide (mkKey q = mkKey p)) :=
      List.mem_filter.mpr ⟨hp, by simp⟩
    rw [hfind] at hin
    exact absurd hin (List.not_mem_nil p)
  · obtain ⟨-, hc, q, hq, hqk, hqcat⟩ := findEntry_buildPriceMap_some ps _ hfind
    refine ⟨toAveragePrice (mkKey p, e), ?_, ?_, ?_, ?_⟩
    · rw [mem_fetchAveragePrices_iff]
      exact ⟨(mkKey p, e), findEntry_some_mem hfind, rfl⟩
    · show capitalizeFirst (splitHead (mkKey p)) = []
      rw [splitHead_mkKey, hn]
      rfl
    · show e.category = p.category
      rw [hqcat, (mkKey_inj hqk).2]
    · show 1 ≤ e.count
      rw [hc]
      have hin : q ∈ ps.filter (fun r => decide (mkKey r = mkKey p)) :=
        List.mem_filter.mpr ⟨hq, by simp [hqk]⟩
      exact List.length_pos.mpr fun hnil => absurd (hnil ▸ hin) (List.not_mem_nil q)

/-- C10, witness: the product named `"!!!"` normalizes to the empty string;
the hypotheses are discharged by `decide` and the conclusion is delivered by
`fetchAveragePrices_emptyName`. -/
theorem fetchAveragePrices_emptyName_witness :
    (productBangs ∈ productsBangs ∧ normalizeProductName productBangs.name = []) ∧
    ∃ g ∈ fetchAveragePrices productsBangs,
      g.name = [] ∧ g.category = productBangs.category ∧ 1 ≤ g.shopCount :=
  ⟨⟨by decide, by decide⟩,
    fetchAveragePrices_emptyName productsBangs productBangs (by decide) (by decide)⟩

/-! ### Claim theorems about the distance ranker -/

/-- C5: the source's `calculateDistance` is exactly the spec's haversine
formula with Earth radius 6371 km and all angles converted from degrees to
radians before use. -/
theorem calculateDistance_eq_haversineSpec (lat1 lon1 lat2 lon2 : ℝ) :
    calculateDistance lat1 lon1 lat2 lon2 = haversineSpec lat1 lon1 lat2 lon2 := by
  simp only [calculateDistance, haversineSpec, degToRad]
  have ha : Real.sin ((lat2 - lat1) * (Real.pi / 180) / 2) *
      Real.sin ((lat2 - lat1) * (Real.pi / 180) / 2) +
      Real.cos (lat1 * (Real.pi / 180)) * Real.cos (lat2 * (Real.pi / 180)) *
        Real.sin ((lon2 - lon1) * (Real.pi / 180) / 2) *
        Real.sin ((lon2 - lon1) * (Real.pi / 180) / 2) =
      Real.sin ((lat2 - lat1) * (Real.pi / 180) / 2) ^ 2 +
      Real.cos (lat1 * (Real.pi / 180)) * Real.cos (lat2 * (Real.pi / 180)) *
        Real.sin ((lon2 - lon1) * (Real.pi / 180) / 2) ^ 2 := by
    ring
  rw [ha]

/-- C7: without a buyer location the ranking is the identity — same shops in
the same order, and no distance annotation on any of them. -/
theorem fetchShops_no_location (shops : List Shop) :
    (fetchShops none shops).map RankedShop.shop = shops ∧
    (fetchShops none shops).map RankedShop.distance =
      shops.map fun _ => (none : Option ℝ) := by
  constructor
  · show (shops.map fun s => RankedShop.mk s none).map RankedShop.shop = shops
    rw [List.map_map]
    rw [show (RankedShop.shop ∘ fun s => RankedShop.mk s none) = id from rfl, List.map_id]
  · show (shops.map fun s => RankedShop.mk s none).map RankedShop.distance = _
    rw [List.map_map]
    rfl

theorem shopLt_asymm : ∀ a b : RankedShop, shopLt a b = true → shopLt b a = false := by
  intro a b h
  simp only [shopLt, decide_eq_true_eq] at h
  simp only [shopLt, decide_eq_false_iff_not]
  exact fun h2 => absurd h (lt_asymm h2)

theorem shopLt_trans_neg : ∀ a b c : RankedShop,
    shopLt b a = false → shopLt c b = false → shopLt c a = false := by
  intro a b c h1 h2
  simp only [shopLt, decide_eq_false_iff_not] at h1 h2 ⊢
  exact not_lt.mpr (le_trans (le_of_not_lt h1) (le_of_not_lt h2))

/-- C2: with a buyer location, the ranked output is a permutation of the
input shops, each annotated with its haversine distance from the buyer;
distances are monotonically non-decreasing along the output; and shops at
equal distances keep their relative input order (stability, stated as: for
every distance value `d`, the subsequence of output shops at distance `d`
equals the annotated input's subsequence at distance `d`). -/
theorem fetchShops_ranked (lat lng : ℝ) (shops : List Shop) :
    ((fetchShops (some (lat, lng)) shops).map RankedShop.shop).Perm shops ∧
    (fetchShops (some (lat, lng)) shops).map RankedShop.distance =
      (fetchShops (some (lat, lng)) shops).map
        (fun r => some (calculateDistance lat lng r.shop.latitude r.shop.longitude)) ∧
    (fetchShops (some (lat, lng)) shops).Pairwise
      (fun a b => distOrZero a ≤ distOrZero b) ∧
    ∀ d : ℝ, (fetchShops (some (lat, lng)) shops).filter
        (fun r => decide (distOrZero r = d)) =
      (annotateShops lat lng shops).filter (fun r => decide (distOrZero r = d)) := by
  have hunf : fetchShops (some (lat, lng)) shops =
      sortWith shopLt (annotateShops lat lng shops) := rfl
  refine ⟨?_, ?_, ?_, ?_⟩
  · rw [hunf]
    have h1 : ((sortWith shopLt (annotateShops lat lng shops)).map RankedShop.shop).Perm
        ((annotateShops lat lng shops).map RankedShop.shop) := (sortWith_perm _ _).map _
    refine h1.trans ?_
    show ((shops.map fun s =>
      RankedShop.mk s (some (calculateDistance lat lng s.latitude s.longitude))).map
        RankedShop.shop).Perm shops
    rw [List.map_map]
    rw [show (RankedShop.shop ∘ fun s =>
      RankedShop.mk s (some (calculateDistance lat lng s.latitude s.longitude))) = id
      from rfl, List.map_id]
  · apply List.map_congr_left
    intro r hr
    rw [hunf] at hr
    have hr2 : r ∈ annotateShops lat lng shops := (sortWith_perm _ _).mem_iff.mp hr
    simp only [annotateShops] at hr2
    obtain ⟨s, -, rfl⟩ := List.mem_map.mp hr2
    rfl
  · rw [hunf]
    have h := sortWith_pairwise shopLt_asymm shopLt_trans_neg (annotateShops lat lng shops)
    refine h.imp ?_
    intro a b hab
    simp only [shopLt, decide_eq_false_iff_not] at hab
    exact le_of_not_lt hab
  · intro d
    rw [hunf]
    apply sortWith_filter
    intro a b ha hb
    rw [decide_eq_true_eq] at ha hb
    simp only [shopLt, ha, hb, decide_eq_false_iff_not]
    exact lt_irrefl d
